import Mathlib

/-!
Verification of the generic match-tree evaluation engine and its trie-based
address-range matcher, as exercised by `TrieMatcherTest`
(`src/unnamed/part_000`).  The repository snapshot contains only the test
file for this component, so the engine itself (the match tree, the on-match
resolver, the exact-map matcher and the trie range matcher) is modelled from
the specification, §3–§4, and the model is checked against the concrete
behaviours observed in the test file.
-/

namespace MatchEngine

/-- Modelled from the spec (§3 FieldValue): the engine is missing from the
sources (only its test is present); tri-state result of extracting a named
field: a concrete value (possibly empty — "available-but-absent" collapses
into the empty value) or a pending value that cannot be produced yet. -/
inductive FieldValue : Type where
  | available : String → FieldValue
  | pending : FieldValue
deriving DecidableEq, Repr

/-- Modelled from the spec (§3 MatchResult): tri-state outcome of one
evaluation: a definite match carrying an action handle, a definite
non-match, or indeterminate (some required field was pending). -/
inductive MatchResult (α : Type) : Type where
  | complete : Option α → MatchResult α
  | indeterminate : MatchResult α
deriving DecidableEq, Repr

/-- Field values per named field for the current request (§4.1). -/
abbrev Env : Type := String → FieldValue

mutual

/-- Modelled from the spec (§3 Outcome): a configured outcome is either an
opaque action handle or a nested match tree. -/
inductive Outcome (α : Type) : Type where
  | action : α → Outcome α
  | subTree : MatchTree α → Outcome α

/-- Modelled from the spec (§3, §4.2, §4.5): the matcher held by a match
tree; either a trie range matcher over an ordered list of range groups
(each group: prefixes as bit-strings, exclusive flag, one outcome) or an
exact-map matcher over key/outcome pairs. -/
inductive Matcher (α : Type) : Type where
  | trie : List (List (List Bool) × Bool × Outcome α) → Matcher α
  | exactMap : List (String × Outcome α) → Matcher α

/-- Modelled from the spec (§4.4): a match tree holds one field name, one
matcher and an optional fallback outcome used on definite non-match. -/
inductive MatchTree (α : Type) : Type where
  | mk : String → Matcher α → Option (Outcome α) → MatchTree α

end

/-- A configured range group: prefixes (bit-strings), exclusive flag,
shared outcome (§4.2 Build). -/
abbrev RangeGroup (α : Type) : Type := List (List Bool) × Bool × Outcome α

/-- A range group with its outcome already resolved to a result. -/
abbrev RGroup (α : Type) : Type := List (List Bool) × Bool × MatchResult α

/-- One trie entry with its outcome already resolved: the entry's prefix
bit-string, its exclusive flag and the resolution of its outcome. -/
abbrev REntry (α : Type) : Type := List Bool × Bool × MatchResult α

/-- Flatten resolved range groups into the ordered entry list: each group
contributes one entry per prefix, preserving overall configuration order
across the whole group list (§4.2 Build). -/
def rgEntries {α : Type} : List (RGroup α) → List (REntry α)
  | [] => []
  | g :: gs => g.1.map (fun p => (p, g.2.1, g.2.2)) ++ rgEntries gs

/-- The entries sitting at the trie node of depth `d` on the path of
`bits`: exactly the entries whose prefix is the length-`d` initial segment
of the address (§3 TrieNode). -/
def nodeEntriesR {α : Type} (es : List (REntry α)) (bits : List Bool) (d : Nat) :
    List (REntry α) :=
  es.filter (fun e => decide (e.1.length = d ∧ bits.take d = e.1))

/-- The candidate entries encountered when walking from the node of depth
`n` back toward the root: per depth, deepest first, configuration order
within one depth (§4.2 Lookup steps 2–3). -/
def candidatesFrom {α : Type} (es : List (REntry α)) (bits : List Bool) :
    Nat → List (REntry α)
  | 0 => nodeEntriesR es bits 0
  | d + 1 => nodeEntriesR es bits (d + 1) ++ candidatesFrom es bits d

/-- Scan the candidate entries in order (§4.2 Lookup step 3a): an
indeterminate resolution propagates immediately; a definite match returns
immediately; a definite non-match stops the whole lookup when the entry is
exclusive and is skipped otherwise.  `none` means every candidate was
exhausted without a resolution. -/
def scanOne {α : Type} : List (REntry α) → Option (MatchResult α)
  | [] => none
  | e :: rest =>
    match e.2.2 with
    | .indeterminate => some .indeterminate
    | .complete (some a) => some (.complete (some a))
    | .complete none => if e.2.1 then some (.complete none) else scanOne rest

/-- Total scan result: exhausting all candidates is a definite non-match
(§4.2 Lookup step 4). -/
def scanList {α : Type} (es : List (REntry α)) : MatchResult α :=
  (scanOne es).getD (.complete none)

/-- Exact-map lookup over entries whose outcomes are already resolved: an
empty value or an absent key is a definite non-match, otherwise the result
of the unique matching entry (§4.5). -/
def mapLookup {α : Type} (entries : List (String × MatchResult α)) (v : String) :
    MatchResult α :=
  if v = "" then .complete none
  else
    match entries.find? (fun kv => kv.1 == v) with
    | none => .complete none
    | some kv => kv.2

/-- Big-endian bits of a natural number at the given width. -/
def natToBits : Nat → Nat → List Bool
  | 0, _ => []
  | w + 1, n => decide (2 ^ w ≤ n) :: natToBits w (n % 2 ^ w)

/-- Split a character list into the dot-separated chunks. -/
def splitDots : List Char → List (List Char)
  | [] => [[]]
  | c :: rest =>
    if c = '.' then [] :: splitDots rest
    else
      match splitDots rest with
      | [] => [[c]]
      | g :: gs => (c :: g) :: gs

/-- Parse one dotted-quad octet: one to three decimal digits, value at
most 255. -/
def parseOctet (cs : List Char) : Option Nat :=
  if cs ≠ [] ∧ cs.length ≤ 3 ∧ cs.all (fun c => c.isDigit) then
    let n := cs.foldl (fun acc c => acc * 10 + (c.toNat - 48)) 0
    if n ≤ 255 then some n else none
  else none

/-- Modelled from the spec (§4.2 Lookup step 1): parse an extracted value
into a fixed-width bit-string; the IPv4 form (the one the test exercises) is
a dotted quad yielding 32 bits; failure yields no bit-string at all. -/
def parseIPv4 (s : String) : Option (List Bool) :=
  match (splitDots s.toList).mapM parseOctet with
  | some [a, b, c, d] =>
    some (natToBits 8 a ++ natToBits 8 b ++ natToBits 8 c ++ natToBits 8 d)
  | _ => none

/-- Modelled from the spec (§4.4 evaluate, steps 4–6): merge the matcher
result with the (eagerly resolved) optional fallback result: indeterminate
and definite matches pass through unchanged; a definite non-match yields
the fallback result when one is configured and stays a definite non-match
otherwise. -/
def combine {α : Type} (r : MatchResult α) (fbr : Option (MatchResult α)) :
    MatchResult α :=
  match r, fbr with
  | .complete none, some r2 => r2
  | .complete none, none => .complete none
  | .complete (some a), _ => .complete (some a)
  | .indeterminate, _ => .indeterminate

mutual

/-- Modelled from the spec (§4.4 evaluate): pull the field value and defer
to `evalAvail`. -/
def evalTree {α : Type} (env : Env) : MatchTree α → MatchResult α
  | .mk field m fb => evalAvail env m fb (env field)
termination_by t => sizeOf t
decreasing_by
  all_goals simp_wf

/-- Modelled from the spec (§4.4 evaluate, steps 2–6): a pending field is
indeterminate; otherwise run the matcher and merge with the fallback
resolution.  Resolution is pure, so resolving the fallback eagerly is
observationally identical to resolving it only on a definite non-match. -/
def evalAvail {α : Type} (env : Env) (m : Matcher α) (fb : Option (Outcome α)) :
    FieldValue → MatchResult α
  | .pending => .indeterminate
  | .available v => combine (evalMatcher env m v) (resolveFallback env fb)
termination_by sizeOf m + sizeOf fb
decreasing_by
  all_goals simp_wf
  · cases fb <;> simp
  · cases m <;> simp

/-- Modelled from the spec (§4.4 step 6): the configured fallback outcome,
resolved via the on-match resolver when present. -/
def resolveFallback {α : Type} (env : Env) :
    Option (Outcome α) → Option (MatchResult α)
  | none => none
  | some o => some (resolveOutcome env o)
termination_by fb => sizeOf fb
decreasing_by
  all_goals simp_wf

/-- Modelled from the spec (§4.2 Lookup, §4.5): run one matcher against an
extracted value.  A trie matcher first parses the value into a bit-string
(failure is a definite non-match) and then scans the candidate entries; an
exact-map matcher performs the unique-key lookup. -/
def evalMatcher {α : Type} (env : Env) (m : Matcher α) (v : String) : MatchResult α :=
  match m with
  | .trie gs =>
    match parseIPv4 v with
    | none => .complete none
    | some bits => scanList (trieCandidates env gs bits)
  | .exactMap entries =>
    mapLookup (entries.attach.map (fun kv => (kv.1.1, resolveOutcome env kv.1.2))) v
termination_by sizeOf m
decreasing_by
  all_goals simp_wf
  all_goals
    (obtain ⟨⟨k, o⟩, hm⟩ := kv
     have hlt := List.sizeOf_lt_of_mem hm
     simp at hlt ⊢
     omega)

/-- Modelled from the spec (§4.2 Lookup steps 2–3): the ordered candidate
entries for an address, each with its outcome resolved via the on-match
resolver; resolution is a pure function, so resolving each group's shared
outcome up front is observationally identical to resolving lazily during
the scan. -/
def trieCandidates {α : Type} (env : Env) (gs : List (RangeGroup α))
    (bits : List Bool) : List (REntry α) :=
  candidatesFrom
    (rgEntries (gs.attach.map (fun g => (g.1.1, g.1.2.1, resolveOutcome env g.1.2.2))))
    bits bits.length
termination_by sizeOf gs
decreasing_by
  all_goals simp_wf
  all_goals
    (obtain ⟨⟨ps, ex, o⟩, hm⟩ := g
     have hlt := List.sizeOf_lt_of_mem hm
     simp at hlt ⊢
     omega)

/-- Modelled from the spec (§4.3 On-Match Resolver): an action outcome is a
definite match of that action; a sub-tree outcome is the nested tree's
evaluation, returned unchanged. -/
def resolveOutcome {α : Type} (env : Env) (o : Outcome α) : MatchResult α :=
  match o with
  | .action a => .complete (some a)
  | .subTree t => evalTree env t
termination_by sizeOf o
decreasing_by
  all_goals simp_wf

end

/-- Trie range lookup on an already-parsed address: scan the ordered,
already-resolved candidate entries (§4.2 Lookup steps 2–4). -/
def trieLookupBits {α : Type} (env : Env) (gs : List (RangeGroup α))
    (bits : List Bool) : MatchResult α :=
  scanList (trieCandidates env gs bits)

theorem combine_ind {α : Type} (fbr : Option (MatchResult α)) :
    combine .indeterminate fbr = .indeterminate := by
  cases fbr <;> rfl

theorem combine_some {α : Type} (a : α) (fbr : Option (MatchResult α)) :
    combine (.complete (some a)) fbr = .complete (some a) := by
  cases fbr <;> rfl

theorem combine_none_none {α : Type} :
    combine (.complete none : MatchResult α) none = .complete none := rfl

theorem combine_none_some {α : Type} (r : MatchResult α) :
    combine (.complete none) (some r) = r := rfl

/-! ### Bridge lemmas: the evaluator in `List.map` form -/

theorem trieCandidates_eq {α : Type} (env : Env) (gs : List (RangeGroup α))
    (bits : List Bool) :
    trieCandidates env gs bits =
      candidatesFrom
        (rgEntries (gs.map (fun g => (g.1, g.2.1, resolveOutcome env g.2.2))))
        bits bits.length := by
  rw [trieCandidates]
  congr 2
  exact List.attach_map_coe gs (fun g => (g.1, g.2.1, resolveOutcome env g.2.2))

theorem evalMatcher_exactMap {α : Type} (env : Env)
    (entries : List (String × Outcome α)) (v : String) :
    evalMatcher env (.exactMap entries) v =
      mapLookup (entries.map (fun kv => (kv.1, resolveOutcome env kv.2))) v := by
  rw [evalMatcher]
  congr 1
  exact List.attach_map_coe entries (fun kv => (kv.1, resolveOutcome env kv.2))

theorem evalMatcher_trie_parsed {α : Type} (env : Env) (gs : List (RangeGroup α))
    (v : String) (bits : List Bool) (h : parseIPv4 v = some bits) :
    evalMatcher env (.trie gs) v = trieLookupBits env gs bits := by
  rw [evalMatcher, h, trieLookupBits]

/-! ### Scan lemmas -/

theorem scanOne_head_some {α : Type} (e : REntry α) (l : List (REntry α)) (a : α)
    (h : e.2.2 = .complete (some a)) :
    scanOne (e :: l) = some (.complete (some a)) := by
  rw [scanOne, h]

theorem scanOne_head_ind {α : Type} (e : REntry α) (l : List (REntry α))
    (h : e.2.2 = .indeterminate) :
    scanOne (e :: l) = some .indeterminate := by
  rw [scanOne, h]

theorem scanOne_head_exclnone {α : Type} (e : REntry α) (l : List (REntry α))
    (h1 : e.2.1 = true) (h2 : e.2.2 = .complete none) :
    scanOne (e :: l) = some (.complete none) := by
  rw [scanOne, h2]
  simp [h1]

theorem scanOne_head_inclnone {α : Type} (e : REntry α) (l : List (REntry α))
    (h1 : e.2.1 = false) (h2 : e.2.2 = .complete none) :
    scanOne (e :: l) = scanOne l := by
  rw [scanOne, h2]
  simp [h1]

theorem scanOne_append_some {α : Type} (l1 l2 : List (REntry α)) (r : MatchResult α)
    (h : scanOne l1 = some r) : scanOne (l1 ++ l2) = some r := by
  induction l1 with
  | nil => simp [scanOne] at h
  | cons e l ih =>
    rw [scanOne] at h
    rw [List.cons_append, scanOne]
    cases hres : e.2.2 with
    | indeterminate => rw [hres] at h; simpa using h
    | complete oa =>
      cases oa with
      | some a => rw [hres] at h; simpa using h
      | none =>
        rw [hres] at h
        by_cases hex : e.2.1 = true
        · simp [hex] at h ⊢; exact h
        · simp at hex
          simp [hex] at h ⊢
          exact ih h

theorem scanOne_append_none {α : Type} (l1 l2 : List (REntry α))
    (h : scanOne l1 = none) : scanOne (l1 ++ l2) = scanOne l2 := by
  induction l1 with
  | nil => simp
  | cons e l ih =>
    rw [scanOne] at h
    rw [List.cons_append, scanOne]
    cases hres : e.2.2 with
    | indeterminate => rw [hres] at h; simp at h
    | complete oa =>
      cases oa with
      | some a => rw [hres] at h; simp at h
      | none =>
        rw [hres] at h
        by_cases hex : e.2.1 = true
        · simp [hex] at h
        · simp at hex
          simp [hex] at h ⊢
          exact ih h

theorem scanOne_fallthrough {α : Type} (l1 l2 : List (REntry α))
    (h : ∀ e ∈ l1, e.2.1 = false ∧ e.2.2 = .complete none) :
    scanOne (l1 ++ l2) = scanOne l2 := by
  induction l1 with
  | nil => simp
  | cons e l ih =>
    obtain ⟨hex, hres⟩ := h e (by simp)
    rw [List.cons_append, scanOne_head_inclnone _ _ hex hres]
    exact ih (fun x hx => h x (by simp [hx]))

theorem scanOne_skip_inclnone {α : Type} (l1 l2 : List (REntry α)) (p : List Bool) :
    scanOne (l1 ++ (p, false, MatchResult.complete none) :: l2) = scanOne (l1 ++ l2) := by
  induction l1 with
  | nil => simp [scanOne_head_inclnone]
  | cons e l ih =>
    rw [List.cons_append, List.cons_append, scanOne, scanOne]
    cases hres : e.2.2 with
    | indeterminate => rfl
    | complete oa =>
      cases oa with
      | some a => rfl
      | none =>
        by_cases hex : e.2.1 = true
        · simp [hex]
        · simp at hex
          simp [hex]
          exact ih

theorem scanOne_forall_some {α : Type} (l : List (REntry α)) (a : α)
    (h : ∀ e ∈ l, e.2.2 = .complete (some a)) :
    scanOne l = none ∨ scanOne l = some (.complete (some a)) := by
  cases l with
  | nil => left; rfl
  | cons e rest =>
    right
    exact scanOne_head_some e rest a (h e (by simp))

/-! ### Candidate-order lemmas -/

theorem mem_nodeEntriesR {α : Type} (es : List (REntry α)) (bits : List Bool)
    (d : Nat) (e : REntry α) :
    e ∈ nodeEntriesR es bits d ↔ e ∈ es ∧ e.1.length = d ∧ bits.take d = e.1 := by
  simp [nodeEntriesR, List.mem_filter, and_assoc]

theorem nodeEntriesR_append {α : Type} (es1 es2 : List (REntry α)) (bits : List Bool)
    (d : Nat) :
    nodeEntriesR (es1 ++ es2) bits d = nodeEntriesR es1 bits d ++ nodeEntriesR es2 bits d := by
  simp [nodeEntriesR, List.filter_append]

theorem mem_rgEntries_pair {α : Type} (ps1 ps2 : List (List Bool)) (x1 x2 : Bool)
    (r1 r2 : MatchResult α) (e : REntry α) :
    e ∈ rgEntries [(ps1, x1, r1), (ps2, x2, r2)] ↔
      (∃ p ∈ ps1, (p, x1, r1) = e) ∨ (∃ p ∈ ps2, (p, x2, r2) = e) := by
  simp [rgEntries]

/-- Walking deeper nodes first: if the node at depth `L` holds a candidate,
and every candidate living at depth `L` or deeper resolves to the same
definite match, the scan starting at any depth `n ≥ L` returns that match. -/
theorem scanFrom_some {α : Type} (es : List (REntry α)) (bits : List Bool) (a : α)
    (L : Nat) :
    ∀ n, L ≤ n →
    nodeEntriesR es bits L ≠ [] →
    (∀ d, L ≤ d → ∀ e ∈ nodeEntriesR es bits d, e.2.2 = .complete (some a)) →
    scanOne (candidatesFrom es bits n) = some (.complete (some a)) := by
  intro n
  induction n with
  | zero =>
    intro hLn hne hall
    have hL0 : L = 0 := Nat.le_zero.mp hLn
    subst hL0
    rw [candidatesFrom]
    obtain ⟨e, t, het⟩ := List.exists_cons_of_ne_nil hne
    rw [het]
    exact scanOne_head_some e t a (hall 0 (Nat.le_refl 0) e (het ▸ List.mem_cons_self e t))
  | succ n ih =>
    intro hLn hne hall
    rw [candidatesFrom]
    rcases Nat.lt_or_ge n L with hcase | hcase
    · have hL : L = n + 1 := by omega
      subst hL
      obtain ⟨e, t, het⟩ := List.exists_cons_of_ne_nil hne
      rw [het]
      exact scanOne_append_some _ _ _
        (scanOne_head_some e t a (hall (n + 1) (Nat.le_refl _) e (het ▸ List.mem_cons_self e t)))
    · have hrest := ih hcase hne hall
      rcases scanOne_forall_some (nodeEntriesR es bits (n + 1)) a
          (hall (n + 1) (by omega)) with hnone | hsome
      · rw [scanOne_append_none _ _ hnone]
        exact hrest
      · exact scanOne_append_some _ _ _ hsome

/-- Tie-breaking: if the node at depth `L` starts with a candidate that
resolves to a definite match and every strictly deeper node on the path is
empty, the scan starting at any depth `n ≥ L` returns that match. -/
theorem scanFrom_first {α : Type} (es : List (REntry α)) (bits : List Bool) (a : α)
    (L : Nat) (e : REntry α) (t : List (REntry α)) :
    ∀ n, L ≤ n →
    nodeEntriesR es bits L = e :: t →
    e.2.2 = .complete (some a) →
    (∀ d, L < d → d ≤ n → nodeEntriesR es bits d = []) →
    scanOne (candidatesFrom es bits n) = some (.complete (some a)) := by
  intro n
  induction n with
  | zero =>
    intro hLn hnode hres _
    have hL0 : L = 0 := Nat.le_zero.mp hLn
    subst hL0
    rw [candidatesFrom, hnode]
    exact scanOne_head_some e t a hres
  | succ n ih =>
    intro hLn hnode hres hempty
    rw [candidatesFrom]
    rcases Nat.lt_or_ge n L with hcase | hcase
    · have hL : L = n + 1 := by omega
      subst hL
      rw [hnode]
      exact scanOne_append_some _ _ _ (scanOne_head_some e t a hres)
    · rw [hempty (n + 1) (by omega) (Nat.le_refl _)]
      simp only [List.nil_append]
      exact ih hcase hnode hres (fun d h1 h2 => hempty d h1 (by omega))

theorem resolveOutcome_action {α : Type} (env : Env) (a : α) :
    resolveOutcome env (.action a) = .complete (some a) := by
  rw [resolveOutcome]

theorem resolveOutcome_subTree {α : Type} (env : Env) (t : MatchTree α) :
    resolveOutcome env (.subTree t) = evalTree env t := by
  rw [resolveOutcome]

/-- Scan over a two-group configuration, in either declaration order: if the
first group matches at depth `L1`, resolves to a definite match, and every
matching prefix of the other group is strictly shorter, the scan yields the
first group's match. -/
theorem scan_pair_longest {α : Type} (bits : List Bool) (a1 : α)
    (r2 : MatchResult α) (ps1 ps2 : List (List Bool)) (x1 x2 : Bool) (L1 : Nat)
    (h1 : ∃ p ∈ ps1, p.length = L1 ∧ bits.take L1 = p)
    (h2 : ∀ p ∈ ps2, bits.take p.length = p → p.length < L1)
    (es : List (REntry α))
    (hes : es = rgEntries [(ps1, x1, .complete (some a1)), (ps2, x2, r2)] ∨
           es = rgEntries [(ps2, x2, r2), (ps1, x1, .complete (some a1))]) :
    scanOne (candidatesFrom es bits bits.length) = some (.complete (some a1)) := by
  obtain ⟨p, hp, hlen, htake⟩ := h1
  have hL1 : L1 ≤ bits.length := by
    have hl := congrArg List.length htake
    simp [List.length_take] at hl
    omega
  have hmem : ∀ e : REntry α, e ∈ es ↔
      ((∃ q ∈ ps1, (q, x1, MatchResult.complete (some a1)) = e) ∨
       (∃ q ∈ ps2, (q, x2, r2) = e)) := by
    intro e
    rcases hes with h | h <;> subst h
    · rw [mem_rgEntries_pair]
    · rw [mem_rgEntries_pair]
      exact or_comm
  apply scanFrom_some es bits a1 L1 bits.length hL1
  · apply List.ne_nil_of_mem (a := (p, x1, MatchResult.complete (some a1)))
    rw [mem_nodeEntriesR]
    exact ⟨(hmem _).mpr (Or.inl ⟨p, hp, rfl⟩), hlen, hlen ▸ htake⟩
  · intro d hd e he
    rw [mem_nodeEntriesR] at he
    obtain ⟨hees, helen, hetake⟩ := he
    rcases (hmem e).mp hees with ⟨q, _, heq⟩ | ⟨q, hq, heq⟩
    · rw [← heq]
    · exfalso
      have : q.length < L1 := by
        apply h2 q hq
        rw [← heq] at helen hetake
        simp at helen hetake
        rw [helen, hetake]
      rw [← heq] at helen
      simp at helen
      omega

/-- C1: for every configured trie range matcher of two groups with action
outcomes and every address, if the first group contains the address at
prefix length `L1` while every matching prefix of the second group is
strictly shorter, the lookup returns the first group's outcome regardless
of the order in which the two groups were declared. -/
theorem trie_longest_prefix_wins {α : Type} (env : Env) (a1 a2 : α)
    (ps1 ps2 : List (List Bool)) (x1 x2 : Bool) (bits : List Bool) (L1 : Nat)
    (gs : List (RangeGroup α))
    (h1 : ∃ p ∈ ps1, p.length = L1 ∧ bits.take L1 = p)
    (h2 : ∀ p ∈ ps2, bits.take p.length = p → p.length < L1)
    (horder : gs = [(ps1, x1, .action a1), (ps2, x2, .action a2)] ∨
              gs = [(ps2, x2, .action a2), (ps1, x1, .action a1)]) :
    trieLookupBits env gs bits = .complete (some a1) := by
  rw [trieLookupBits, trieCandidates_eq, scanList]
  have hscan := scan_pair_longest bits a1 (resolveOutcome env (.action a2))
    ps1 ps2 x1 x2 L1 h1 h2
    (rgEntries ((gs.map (fun g => (g.1, g.2.1, resolveOutcome env g.2.2)))))
    (by rcases horder with h | h <;> subst h <;>
        simp [resolveOutcome_action])
  rw [hscan]
  rfl

/-- No entry of a single resolved group sits at a node strictly deeper than
the bound on its matching prefixes. -/
theorem nodeEntriesR_map_empty {α : Type} (ps : List (List Bool)) (x : Bool)
    (r : MatchResult α) (bits : List Bool) (L d : Nat)
    (hmax : ∀ p ∈ ps, bits.take p.length = p → p.length ≤ L) (hd : L < d) :
    nodeEntriesR (ps.map (fun p => (p, x, r))) bits d = [] := by
  rw [List.eq_nil_iff_forall_not_mem]
  intro e he
  rw [mem_nodeEntriesR] at he
  obtain ⟨hin, hlen, htake⟩ := he
  obtain ⟨q, hq, hqe⟩ := List.mem_map.mp hin
  have hq1 : e.1 = q := by rw [← hqe]
  rw [hq1] at hlen htake
  have := hmax q hq (by rw [hlen]; exact htake)
  omega

/-- C2: for every configured trie range matcher of two groups with action
outcomes and every address, if both groups contain the address and `L` is
the longest matching prefix length of either group, with the first group
matching at `L`, the lookup returns the earlier-declared group's outcome. -/
theorem trie_tie_break_config_order {α : Type} (env : Env) (a1 a2 : α)
    (ps1 ps2 : List (List Bool)) (x1 x2 : Bool) (bits : List Bool) (L : Nat)
    (h1 : ∃ p ∈ ps1, p.length = L ∧ bits.take L = p)
    (h2 : ∃ p ∈ ps2, p.length = L ∧ bits.take L = p)
    (hmax1 : ∀ p ∈ ps1, bits.take p.length = p → p.length ≤ L)
    (hmax2 : ∀ p ∈ ps2, bits.take p.length = p → p.length ≤ L) :
    trieLookupBits env [(ps1, x1, .action a1), (ps2, x2, .action a2)] bits
      = .complete (some a1) := by
  rw [trieLookupBits, trieCandidates_eq, scanList]
  simp only [List.map_cons, List.map_nil, resolveOutcome_action]
  obtain ⟨p, hp, hlen, htake⟩ := h1
  have hL : L ≤ bits.length := by
    have hl := congrArg List.length htake
    simp [List.length_take] at hl
    omega
  have hes : rgEntries [(ps1, x1, MatchResult.complete (some a1)),
      (ps2, x2, MatchResult.complete (some a2))] =
      ps1.map (fun q => (q, x1, MatchResult.complete (some a1))) ++
      ps2.map (fun q => (q, x2, MatchResult.complete (some a2))) := by
    simp [rgEntries]
  have hmem1 : (p, x1, MatchResult.complete (some a1)) ∈
      nodeEntriesR (ps1.map (fun q => (q, x1, MatchResult.complete (some a1)))) bits L := by
    rw [mem_nodeEntriesR]
    exact ⟨List.mem_map_of_mem _ hp, hlen, hlen ▸ htake⟩
  obtain ⟨e, t, het⟩ := List.exists_cons_of_ne_nil (List.ne_nil_of_mem hmem1)
  have hres : e.2.2 = MatchResult.complete (some a1) := by
    have hmem : e ∈ nodeEntriesR
        (ps1.map (fun q => (q, x1, MatchResult.complete (some a1)))) bits L := by
      rw [het]; exact List.mem_cons_self e t
    rw [mem_nodeEntriesR] at hmem
    obtain ⟨hin, _, _⟩ := hmem
    obtain ⟨q, _, hq⟩ := List.mem_map.mp hin
    rw [← hq]
  rw [scanFrom_first _ bits a1 L e
      (t ++ nodeEntriesR (ps2.map (fun q => (q, x2, MatchResult.complete (some a2)))) bits L)
      bits.length hL ?hnode hres ?hdeeper]
  · rfl
  case hnode =>
    rw [hes, nodeEntriesR_append, het, List.cons_append]
  case hdeeper =>
    intro d hd _
    rw [hes, nodeEntriesR_append,
      nodeEntriesR_map_empty ps1 x1 _ bits L d hmax1 hd,
      nodeEntriesR_map_empty ps2 x2 _ bits L d hmax2 hd]
    rfl

/-- C3: when an exclusive range entry is reached during a trie lookup
(every earlier candidate was non-exclusive and resolved to a definite
non-match) and its own outcome resolves to a definite non-match, the whole
lookup returns `Complete(None)` irrespective of all later candidates, i.e.
no less-specific prefix and no later entry is consulted. -/
theorem trie_exclusive_short_circuit {α : Type} (env : Env)
    (gs : List (RangeGroup α)) (bits : List Bool) (l1 l2 : List (REntry α))
    (p : List Bool)
    (h : trieCandidates env gs bits = l1 ++ (p, true, .complete none) :: l2)
    (hfall : ∀ e ∈ l1, e.2.1 = false ∧ e.2.2 = .complete none) :
    trieLookupBits env gs bits = .complete none := by
  rw [trieLookupBits, scanList, h, scanOne_fallthrough _ _ hfall,
    scanOne_head_exclnone _ _ rfl rfl]
  rfl

/-- C4: a non-exclusive candidate whose outcome resolves to a definite
non-match is skipped exactly as if the entry did not exist: the lookup
continues with the remaining candidates (same node, then less-specific
nodes). -/
theorem trie_inclusive_fallthrough {α : Type} (env : Env)
    (gs : List (RangeGroup α)) (bits : List Bool) (l1 l2 : List (REntry α))
    (p : List Bool)
    (h : trieCandidates env gs bits = l1 ++ (p, false, .complete none) :: l2) :
    trieLookupBits env gs bits = scanList (l1 ++ l2) := by
  rw [trieLookupBits, scanList, h, scanOne_skip_inclnone, scanList]

/-- C5: a pending top-level field makes the whole evaluation indeterminate
for any matcher and fallback; and when the top-level address matches but the
reached candidate's nested resolution is indeterminate, the whole evaluation
is indeterminate as well (never silently resolved as a non-match). -/
theorem indeterminate_propagation {α : Type} (env : Env) :
    (∀ (f : String) (m : Matcher α) (fb : Option (Outcome α)),
      env f = .pending → evalTree env (.mk f m fb) = .indeterminate) ∧
    (∀ (f : String) (gs : List (RangeGroup α)) (fb : Option (Outcome α))
       (v : String) (bits : List Bool) (l1 l2 : List (REntry α))
       (p : List Bool) (ex : Bool),
      env f = .available v → parseIPv4 v = some bits →
      trieCandidates env gs bits = l1 ++ (p, ex, .indeterminate) :: l2 →
      (∀ e ∈ l1, e.2.1 = false ∧ e.2.2 = .complete none) →
      evalTree env (.mk f (.trie gs) fb) = .indeterminate) := by
  constructor
  · intro f m fb hf
    rw [evalTree, hf, evalAvail]
  · intro f gs fb v bits l1 l2 p ex hf hv hc hfall
    have hm : evalMatcher env (.trie gs) v = .indeterminate := by
      rw [evalMatcher_trie_parsed env gs v bits hv, trieLookupBits, scanList, hc,
        scanOne_fallthrough _ _ hfall, scanOne_head_ind _ _ rfl]
      rfl
    rw [evalTree, hf, evalAvail, hm, combine_ind]

/-- C6: a definite matcher non-match with a configured fallback outcome
resolves the fallback via the on-match resolver and returns that result
unchanged; and a candidate that resolves to a definite match (for instance
via a fallback sub-tree inside it) terminates the enclosing trie lookup
with that match, suppressing any further fall-through. -/
theorem fallback_resolution {α : Type} (env : Env) :
    (∀ (f : String) (m : Matcher α) (o : Outcome α) (v : String),
      env f = .available v → evalMatcher env m v = .complete none →
      evalTree env (.mk f m (some o)) = resolveOutcome env o) ∧
    (∀ (gs : List (RangeGroup α)) (bits : List Bool) (l1 l2 : List (REntry α))
       (p : List Bool) (ex : Bool) (a : α),
      trieCandidates env gs bits = l1 ++ (p, ex, .complete (some a)) :: l2 →
      (∀ e ∈ l1, e.2.1 = false ∧ e.2.2 = .complete none) →
      trieLookupBits env gs bits = .complete (some a)) := by
  constructor
  · intro f m o v hf hm
    rw [evalTree, hf, evalAvail, hm, resolveFallback, combine_none_some]
  · intro gs bits l1 l2 p ex a hc hfall
    rw [trieLookupBits, scanList, hc, scanOne_fallthrough _ _ hfall,
      scanOne_head_some _ _ _ rfl]
    rfl

/-- C7: an extracted value that does not parse as an address matches no
range entry: the trie matcher yields a definite non-match, and the
enclosing tree takes the ordinary no-match path (fallback when configured),
for any available field value. -/
theorem parse_failure_no_candidate {α : Type} (env : Env)
    (gs : List (RangeGroup α)) (v : String) (h : parseIPv4 v = none) :
    evalMatcher env (.trie gs) v = .complete none ∧
    (∀ (f : String) (fb : Option (Outcome α)),
      env f = .available v →
      evalTree env (.mk f (.trie gs) fb) =
        (match fb with
         | none => .complete none
         | some o => resolveOutcome env o)) := by
  have hm : evalMatcher env (Matcher.trie gs) v = MatchResult.complete none := by
    rw [evalMatcher, h]
  refine ⟨hm, ?_⟩
  intro f fb hf
  cases fb with
  | none => rw [evalTree, hf, evalAvail, hm, resolveFallback, combine_none_none]
  | some o => rw [evalTree, hf, evalAvail, hm, resolveFallback, combine_none_some]

/-- The first entry with the sought key, under unique keys, is the unique
entry with that key. -/
theorem find?_unique_key {γ : Type} (l : List (String × γ)) (k v : String) (x : γ)
    (hpw : l.Pairwise (fun kv kw => kv.1 ≠ kw.1)) (hmem : (k, x) ∈ l) (hk : k = v) :
    l.find? (fun kv => kv.1 == v) = some (k, x) := by
  induction l with
  | nil => simp at hmem
  | cons e t ih =>
    rw [List.pairwise_cons] at hpw
    obtain ⟨hhead, htail⟩ := hpw
    rcases List.mem_cons.mp hmem with heq | hmem2
    · rw [← heq]
      apply List.find?_cons_of_pos
      simp [hk]
    · have hne : (e.1 == v) = false := by
        simp
        intro hev
        exact hhead (k, x) hmem2 (by rw [hev, hk])
      rw [List.find?_cons_of_neg _ (by simp [hne])]
      exact ih htail hmem2

/-- C8: exact-map lookup semantics: an empty extracted value or an absent
key yields a definite non-match; otherwise, under the unique-keys
configuration invariant, the matching entry's outcome is resolved via the
on-match resolver and returned unchanged. -/
theorem exact_map_semantics {α : Type} (env : Env)
    (entries : List (String × Outcome α)) (v : String) :
    (v = "" → evalMatcher env (.exactMap entries) v = .complete none) ∧
    ((∀ kv ∈ entries, kv.1 ≠ v) →
      evalMatcher env (.exactMap entries) v = .complete none) ∧
    (∀ (k : String) (o : Outcome α),
      v ≠ "" → entries.Pairwise (fun kv kw => kv.1 ≠ kw.1) →
      (k, o) ∈ entries → k = v →
      evalMatcher env (.exactMap entries) v = resolveOutcome env o) := by
  refine ⟨?_, ?_, ?_⟩
  · intro hv
    rw [evalMatcher_exactMap]
    simp [mapLookup, hv]
  · intro hnk
    have hfind : (entries.map (fun kv => (kv.1, resolveOutcome env kv.2))).find?
        (fun kv => kv.1 == v) = none := by
      rw [List.find?_eq_none]
      intro x hx
      obtain ⟨kv, hkv, hkvx⟩ := List.mem_map.mp hx
      rw [← hkvx]
      simp
      exact hnk kv hkv
    rw [evalMatcher_exactMap]
    by_cases hv : v = "" <;> simp [mapLookup, hv, hfind]
  · intro k o hv hpw hmem hk
    have hfind : (entries.map (fun kv => (kv.1, resolveOutcome env kv.2))).find?
        (fun kv => kv.1 == v) = some (k, resolveOutcome env o) := by
      apply find?_unique_key _ k v _ ?_ ?_ hk
      · exact List.Pairwise.map _ (fun a b hab => hab) hpw
      · exact List.mem_map_of_mem (fun kv => (kv.1, resolveOutcome env kv.2)) hmem
    rw [evalMatcher_exactMap]
    simp [mapLookup, hv, hfind]

/-- Two evaluations of the same tree under the same field values. -/
def evalTwice {α : Type} (env : Env) (t : MatchTree α) :
    MatchResult α × MatchResult α :=
  (evalTree env t, evalTree env t)

/-- Repeated evaluations, `n` of them, of the same tree under the same
field values. -/
def evalRuns {α : Type} (env : Env) (t : MatchTree α) : Nat → List (MatchResult α)
  | 0 => []
  | n + 1 => evalTree env t :: evalRuns env t n

/-- C9: evaluation is a pure function of the tree and the field values:
evaluating the same fixed tree twice — or any number of times — yields the
identical result on every run, and neither the tree nor the field values
are threaded through as mutable state. -/
theorem eval_deterministic {α : Type} (env : Env) (t : MatchTree α) (n : Nat) :
    (evalTwice env t).1 = (evalTwice env t).2 ∧
    evalRuns env t n = List.replicate n (evalTree env t) := by
  refine ⟨rfl, ?_⟩
  induction n with
  | zero => rfl
  | succ n ih => rw [evalRuns, ih, List.replicate_succ]

/-! ### Exclusivity is consulted only on the definite-non-match branch -/

/-- Resolved entries agreeing on prefix and result, and on the exclusive
flag whenever the result is a definite non-match. -/
def entryAgrees {α : Type} (e f : REntry α) : Prop :=
  e.1 = f.1 ∧ e.2.2 = f.2.2 ∧ (e.2.2 = .complete none → e.2.1 = f.2.1)

/-- Resolved range groups agreeing likewise. -/
def groupAgrees {α : Type} (g h : RGroup α) : Prop :=
  g.1 = h.1 ∧ g.2.2 = h.2.2 ∧ (g.2.2 = .complete none → g.2.1 = h.2.1)

theorem scanOne_congr {α : Type} (l l' : List (REntry α))
    (h : List.Forall₂ entryAgrees l l') : scanOne l = scanOne l' := by
  induction h with
  | nil => rfl
  | cons hef htail ih =>
    rename_i e f t t'
    obtain ⟨h1, h2, h3⟩ := hef
    rw [scanOne, scanOne, ← h2]
    cases hres : e.2.2 with
    | indeterminate => rfl
    | complete oa =>
      cases oa with
      | some a => rfl
      | none =>
        rw [← h3 hres]
        by_cases hex : e.2.1 = true
        · simp [hex]
        · simp only [Bool.not_eq_true] at hex
          simp only [hex, Bool.false_eq_true, if_false]
          exact ih

theorem forall₂_filter_congr {γ : Type} (R : γ → γ → Prop) (p : γ → Bool)
    (hp : ∀ a b, R a b → p a = p b) :
    ∀ {l l' : List γ}, List.Forall₂ R l l' →
      List.Forall₂ R (l.filter p) (l'.filter p) := by
  intro l l' h
  induction h with
  | nil => exact List.Forall₂.nil
  | cons hab htail ih =>
    rename_i a b t t'
    rw [List.filter_cons, List.filter_cons, ← hp a b hab]
    by_cases hpa : p a = true
    · simp only [hpa, if_true]
      exact List.Forall₂.cons hab ih
    · simp only [Bool.not_eq_true] at hpa
      simp only [hpa, Bool.false_eq_true, if_false]
      exact ih

theorem nodeEntriesR_congr {α : Type} (bits : List Bool) (d : Nat)
    {es es' : List (REntry α)} (h : List.Forall₂ entryAgrees es es') :
    List.Forall₂ entryAgrees (nodeEntriesR es bits d) (nodeEntriesR es' bits d) := by
  apply forall₂_filter_congr _ _ ?_ h
  intro a b hab
  obtain ⟨h1, _, _⟩ := hab
  simp [h1]

theorem candidatesFrom_congr {α : Type} (bits : List Bool)
    {es es' : List (REntry α)} (h : List.Forall₂ entryAgrees es es') :
    ∀ n, List.Forall₂ entryAgrees (candidatesFrom es bits n) (candidatesFrom es' bits n) := by
  intro n
  induction n with
  | zero => exact nodeEntriesR_congr bits 0 h
  | succ n ih =>
    simp only [candidatesFrom]
    exact List.rel_append (nodeEntriesR_congr bits (n + 1) h) ih

theorem rgEntries_congr {α : Type} {rgs rgs' : List (RGroup α)}
    (h : List.Forall₂ groupAgrees rgs rgs') :
    List.Forall₂ entryAgrees (rgEntries rgs) (rgEntries rgs') := by
  induction h with
  | nil => exact List.Forall₂.nil
  | cons hgg htail ih =>
    rename_i g g' t t'
    simp only [rgEntries]
    apply List.rel_append ?_ ih
    obtain ⟨h1, h2, h3⟩ := hgg
    rw [← h1]
    generalize g.1 = qs
    induction qs with
    | nil => exact List.Forall₂.nil
    | cons p ps ihp =>
      rw [List.map_cons, List.map_cons]
      exact List.Forall₂.cons ⟨rfl, h2, fun hn => h3 hn⟩ ihp

/-- C10: marking a range group exclusive changes behaviour only on the
definite-non-match branch: two configurations with identical prefixes and
outcomes, whose exclusive flags may differ only on groups whose outcome
resolves to a definite match, return the same lookup result for every
address. -/
theorem exclusive_flag_irrelevant_on_match {α : Type} (env : Env)
    (gs gs' : List (RangeGroup α)) (bits : List Bool)
    (h : List.Forall₂ (fun g g' : RangeGroup α =>
      g.1 = g'.1 ∧ g.2.2 = g'.2.2 ∧
      (g.2.1 ≠ g'.2.1 → ∃ a, resolveOutcome env g.2.2 = .complete (some a))) gs gs') :
    trieLookupBits env gs bits = trieLookupBits env gs' bits := by
  rw [trieLookupBits, trieLookupBits, scanList, scanList,
    trieCandidates_eq, trieCandidates_eq]
  have hg : List.Forall₂ groupAgrees
      (gs.map (fun g => (g.1, g.2.1, resolveOutcome env g.2.2)))
      (gs'.map (fun g => (g.1, g.2.1, resolveOutcome env g.2.2))) := by
    rw [List.forall₂_map_left_iff, List.forall₂_map_right_iff]
    apply List.Forall₂.imp ?_ h
    intro g g' hgg
    obtain ⟨h1, h2, h3⟩ := hgg
    refine ⟨h1, by rw [h2], ?_⟩
    dsimp only
    intro hnone
    by_contra hflag
    obtain ⟨a, ha⟩ := h3 hflag
    rw [hnone] at ha
    simp at ha
  rw [scanOne_congr _ _ (candidatesFrom_congr bits (rgEntries_congr hg) bits.length)]

/-! ### Concrete fixtures mirroring the configurations of `TrieMatcherTest` -/

/-- The 32 bits of a dotted quad. -/
abbrev bitsOfQuad (a b c d : Nat) : List Bool :=
  natToBits 8 a ++ natToBits 8 b ++ natToBits 8 c ++ natToBits 8 d

/-- The first `len` bits of a dotted quad: a configured `address_prefix`
with `prefix_len = len`. -/
abbrev prefixBits (a b c d len : Nat) : List Bool := (bitsOfQuad a b c d).take len

abbrev p128s1 : List Bool := prefixBits 128 0 0 0 1
abbrev p192s2 : List Bool := prefixBits 192 0 0 0 2
abbrev p255s8 : List Bool := prefixBits 255 0 0 0 8
abbrev p192s10 : List Bool := prefixBits 192 101 0 0 10
abbrev p192x32 : List Bool := prefixBits 192 0 0 1 32
abbrev p0 : List Bool := prefixBits 0 0 0 0 0

abbrev addrA : List Bool := bitsOfQuad 192 0 100 1
abbrev addr255 : List Bool := bitsOfQuad 255 0 0 1
abbrev addr127 : List Bool := bitsOfQuad 127 0 0 1

abbrev envAvail : Env := fun _ => .available ""
abbrev envNested (v : String) : Env :=
  fun f => if f = "nested" then .available v else .available ""
abbrev envAllPending : Env := fun _ => .pending
abbrev envNestedPending : Env :=
  fun f => if f = "nested" then .pending else .available "127.0.0.1"

/-- The nested exact-map sub-tree `{ baz → bar }` on field `nested`. -/
abbrev treeBaz : MatchTree String :=
  .mk "nested" (.exactMap [("baz", .action "bar")]) none

/-- The recursive sub-tree of `RecursiveMatcherTree`: `{ bar → bar }` with
an `on_no_match` sub-tree `{ baz → baz }`. -/
abbrev treeRecInner : MatchTree String :=
  .mk "nested" (.exactMap [("bar", .action "bar")])
    (some (.subTree (.mk "nested" (.exactMap [("baz", .action "baz")]) none)))

/-- The nested trie sub-tree of `NoData`. -/
abbrev treeTrieNested : MatchTree String :=
  .mk "nested" (.trie [([p192s2], false, .action "foo")]) none

/-- Configuration of `OverlappingMatcher`: foo holds 128/1, 192/2, 192/2;
bar holds 255/8, 192/2, 192.0.0.1/32. -/
abbrev gsOverlap : List (RangeGroup String) :=
  [([p128s1, p192s2, p192s2], false, .action "foo"),
   ([p255s8, p192s2, p192x32], false, .action "bar")]

/-- Configuration of `NestedInclusiveMatcher`: 0/0 → foo, 192/2 → sub-tree. -/
abbrev gsIncl : List (RangeGroup String) :=
  [([p0], false, .action "foo"), ([p192s2], false, .subTree treeBaz)]

/-- Configuration of `NestedExclusiveMatcher`: identical, both groups
exclusive. -/
abbrev gsExcl : List (RangeGroup String) :=
  [([p0], true, .action "foo"), ([p192s2], true, .subTree treeBaz)]

/-- Configuration of `RecursiveMatcherTree`: 0/0 → foo, 192/2 → recursive
sub-tree. -/
abbrev gsRec : List (RangeGroup String) :=
  [([p0], false, .action "foo"), ([p192s2], false, .subTree treeRecInner)]

/-- Configuration of `NoData`: 0/0 → nested trie sub-tree. -/
abbrev gsNoData : List (RangeGroup String) :=
  [([p0], false, .subTree treeTrieNested)]

/-- Configuration of `TestMatcher`: 192/2 → foo, 192.101/10 → bar. -/
abbrev gsTM : List (RangeGroup String) :=
  [([p192s2], false, .action "foo"), ([p192s10], false, .action "bar")]

/-- The nested sub-tree misses when the nested field holds the empty
string. -/
theorem resolveBaz_empty :
    resolveOutcome (envNested "") (.subTree treeBaz) = .complete none := by
  rw [resolveOutcome_subTree, evalTree]
  have h : (envNested "") "nested" = .available "" := by decide
  rw [h, evalAvail, evalMatcher_exactMap, resolveFallback]
  simp only [List.map_cons, List.map_nil, resolveOutcome_action]
  decide

/-- The nested sub-tree matches `bar` when the nested field holds `baz`. -/
theorem resolveBaz_baz :
    resolveOutcome (envNested "baz") (.subTree treeBaz) = .complete (some "bar") := by
  rw [resolveOutcome_subTree, evalTree]
  have h : (envNested "baz") "nested" = .available "baz" := by decide
  rw [h, evalAvail, evalMatcher_exactMap, resolveFallback]
  simp only [List.map_cons, List.map_nil, resolveOutcome_action]
  decide

/-- The recursive sub-tree's primary map misses on `baz`. -/
theorem innerMiss_baz :
    evalMatcher (envNested "baz") (.exactMap [("bar", Outcome.action "bar")]) "baz"
      = .complete none := by
  rw [evalMatcher_exactMap]
  simp only [List.map_cons, List.map_nil, resolveOutcome_action]
  decide

/-- The recursive sub-tree's fallback map hits `baz`. -/
theorem resolveRecFallback_baz :
    resolveOutcome (envNested "baz")
      (.subTree (.mk "nested" (.exactMap [("baz", Outcome.action "baz")]) none))
      = .complete (some "baz") := by
  rw [resolveOutcome_subTree, evalTree]
  have h : (envNested "baz") "nested" = .available "baz" := by decide
  rw [h, evalAvail, evalMatcher_exactMap, resolveFallback]
  simp only [List.map_cons, List.map_nil, resolveOutcome_action]
  decide

/-- The whole recursive sub-tree resolves to `baz` via its fallback. -/
theorem resolveRecInner_baz :
    resolveOutcome (envNested "baz") (.subTree treeRecInner)
      = .complete (some "baz") := by
  rw [resolveOutcome_subTree, evalTree]
  have h : (envNested "baz") "nested" = .available "baz" := by decide
  rw [h, evalAvail, innerMiss_baz, resolveFallback, resolveRecFallback_baz]
  rfl

/-- The nested trie sub-tree is indeterminate when its field is pending. -/
theorem resolveTrieNested_pending :
    resolveOutcome envNestedPending (.subTree treeTrieNested) = .indeterminate := by
  rw [resolveOutcome_subTree, evalTree]
  have h : envNestedPending "nested" = .pending := by decide
  rw [h, evalAvail]

theorem candsExcl : trieCandidates (envNested "") gsExcl addrA =
    [(p192s2, true, .complete none), (p0, true, .complete (some "foo"))] := by
  rw [trieCandidates_eq]
  simp only [List.map_cons, List.map_nil, resolveOutcome_action, resolveBaz_empty]
  decide

theorem candsIncl : trieCandidates (envNested "") gsIncl addrA =
    [(p192s2, false, .complete none), (p0, false, .complete (some "foo"))] := by
  rw [trieCandidates_eq]
  simp only [List.map_cons, List.map_nil, resolveOutcome_action, resolveBaz_empty]
  decide

theorem candsRec : trieCandidates (envNested "baz") gsRec addrA =
    [(p192s2, false, .complete (some "baz")), (p0, false, .complete (some "foo"))] := by
  rw [trieCandidates_eq]
  simp only [List.map_cons, List.map_nil, resolveOutcome_action, resolveRecInner_baz]
  decide

theorem candsNoData : trieCandidates envNestedPending gsNoData addr127 =
    [(p0, false, .indeterminate)] := by
  rw [trieCandidates_eq]
  simp only [List.map_cons, List.map_nil, resolveTrieNested_pending]
  decide

/-! ### Witnesses: the claim theorems applied at the test's inputs -/

/-- C1 witness: `OverlappingMatcher` on `255.0.0.1` returns `bar` (the /8
group beats the /1–/2 group although declared later). -/
theorem trie_longest_prefix_wins_witness :
    trieLookupBits envAvail gsOverlap addr255 = .complete (some "bar") :=
  trie_longest_prefix_wins envAvail "bar" "foo"
    [p255s8, p192s2, p192x32] [p128s1, p192s2, p192s2] false false addr255 8 gsOverlap
    (by decide) (by decide) (Or.inr rfl)

/-- C2 witness: `OverlappingMatcher` on `192.0.100.1` returns `foo` (both
groups match at /2; the earlier-declared group wins). -/
theorem trie_tie_break_config_order_witness :
    trieLookupBits envAvail gsOverlap addrA = .complete (some "foo") :=
  trie_tie_break_config_order envAvail "foo" "bar"
    [p128s1, p192s2, p192s2] [p255s8, p192s2, p192x32] false false addrA 2
    (by decide) (by decide) (by decide) (by decide)

/-- C3 witness: `NestedExclusiveMatcher` on `192.0.100.1` with an empty
nested field returns a definite non-match, never falling back to `foo`. -/
theorem trie_exclusive_short_circuit_witness :
    trieLookupBits (envNested "") gsExcl addrA = .complete none :=
  trie_exclusive_short_circuit (envNested "") gsExcl addrA []
    [(p0, true, .complete (some "foo"))] p192s2 candsExcl (fun _ he => nomatch he)

/-- C4 witness: `NestedInclusiveMatcher` on `192.0.100.1` with an empty
nested field falls through to the catch-all group and returns `foo`. -/
theorem trie_inclusive_fallthrough_witness :
    trieLookupBits (envNested "") gsIncl addrA = .complete (some "foo") :=
  (trie_inclusive_fallthrough (envNested "") gsIncl addrA []
    [(p0, false, .complete (some "foo"))] p192s2 candsIncl).trans (by decide)

/-- C5 witness: `NoData`: a pending top-level field is indeterminate, and a
matching outer address with a pending nested field is indeterminate too. -/
theorem indeterminate_propagation_witness :
    evalTree envAllPending (.mk "input" (.trie ([] : List (RangeGroup String))) none)
      = .indeterminate ∧
    evalTree envNestedPending (.mk "input" (.trie gsNoData) none) = .indeterminate :=
  ⟨(indeterminate_propagation envAllPending).1 "input" (.trie []) none rfl,
   (indeterminate_propagation envNestedPending).2 "input" gsNoData none "127.0.0.1"
     addr127 [] [] p0 false (by decide) (by decide) candsNoData (fun _ he => nomatch he)⟩

/-- C6 witness: `RecursiveMatcherTree` on `192.0.100.1` with nested `baz`:
the inner tree's fallback sub-tree produces `baz` and the outer lookup
returns it without falling through to `foo`. -/
theorem fallback_resolution_witness :
    evalTree (envNested "baz") treeRecInner = .complete (some "baz") ∧
    trieLookupBits (envNested "baz") gsRec addrA = .complete (some "baz") :=
  ⟨((fallback_resolution (envNested "baz")).1 "nested"
      (.exactMap [("bar", Outcome.action "bar")])
      (.subTree (.mk "nested" (.exactMap [("baz", Outcome.action "baz")]) none)) "baz"
      (by decide) innerMiss_baz).trans resolveRecFallback_baz,
   (fallback_resolution (envNested "baz")).2 gsRec addrA []
     [(p0, false, .complete (some "foo"))] p192s2 false "baz" candsRec
     (fun _ he => nomatch he)⟩

/-- C7 witness: `TestMatcher` on the unparsable value `xxx` is a definite
non-match. -/
theorem parse_failure_no_candidate_witness :
    evalMatcher envAvail (.trie gsTM) "xxx" = .complete none :=
  (parse_failure_no_candidate envAvail gsTM "xxx" (by decide)).1

/-- C8 witness: the nested exact map sending baz to bar: the empty value is a
definite non-match and the value `baz` resolves to the action `bar`. -/
theorem exact_map_semantics_witness :
    evalMatcher (envNested "baz") (.exactMap [("baz", Outcome.action "bar")]) ""
      = .complete none ∧
    evalMatcher (envNested "baz") (.exactMap [("baz", Outcome.action "bar")]) "baz"
      = .complete (some "bar") :=
  ⟨(exact_map_semantics (envNested "baz") [("baz", .action "bar")] "").1 rfl,
   ((exact_map_semantics (envNested "baz") [("baz", .action "bar")] "baz").2.2 "baz"
      (.action "bar") (by decide) (by simp) (by simp) rfl).trans
     (resolveOutcome_action _ _)⟩

/-- C10 witness: the inclusive and exclusive nested configurations return
the same result on `192.0.100.1` when the nested field holds `baz` (both
`bar`, per the tests). -/
theorem exclusive_flag_irrelevant_on_match_witness :
    trieLookupBits (envNested "baz") gsIncl addrA
      = trieLookupBits (envNested "baz") gsExcl addrA :=
  exclusive_flag_irrelevant_on_match (envNested "baz") gsIncl gsExcl addrA
    (List.Forall₂.cons ⟨rfl, rfl, fun _ => ⟨"foo", resolveOutcome_action _ _⟩⟩
      (List.Forall₂.cons ⟨rfl, rfl, fun _ => ⟨"bar", resolveBaz_baz⟩⟩ List.Forall₂.nil))

end MatchEngine
